import Mathlib

/-!
Verification of the immediate-value materialization engine of the dolphin
repository (JitArm64 `MOVI2R` / `LogicalImm` family) and of the
`DolphinDevice` IOS ioctl dispatcher, against the repository's
natural-language specification.

The emitter itself (`Common/Arm64Emitter`) is repository code that is not
part of the provided sources (only its unit tests,
`Source/UnitTests/Core/PowerPC/JitArm64/MovI2R.cpp`, are).  The engine is
therefore modelled from the specification, faithful to its wording; the
unit-test file is used for the concrete exercise patterns.
-/

namespace Arm64Gen

/-- Modelled from the spec: a contiguous run of `s` set bits starting at bit 0
(the canonical "single contiguous run of ones" of the Bitmask-Immediate
Classifier, §4.1). -/
def onesRun (s : Nat) : Nat := 2 ^ s - 1

/-- Modelled from the spec: right-rotation of an `e`-bit field by `r`
positions (`r ≤ e`), expressed arithmetically: the low `r` bits wrap to the
top of the field. -/
def ror (e x r : Nat) : Nat := x / 2 ^ r + x % 2 ^ r * 2 ^ (e - r)

/-- Modelled from the spec: left-rotation of an `e`-bit field by `r ≤ e`,
the inverse of `ror e · r`. -/
def rol (e x r : Nat) : Nat := ror e x (e - r)

/-- Modelled from the spec: replicate (tile) an `e`-bit pattern `q` across
`k` adjacent `e`-bit lanes, least-significant lane first ("replicating the
low `e` bits across the full width", §4.1). -/
def repl (e q : Nat) : Nat → Nat
  | 0 => 0
  | k + 1 => q + 2 ^ e * repl e q k

/-- Modelled from the spec: the candidate element sizes of the classifier,
"each candidate element size `e` in {2,4,8,16,32,64} (only sizes ≤ width,
powers of two)" (§4.1), in increasing order. -/
def candidateSizes (w : Nat) : List Nat := [2, 4, 8, 16, 32, 64].filter (· ≤ w)

/-- Modelled from the spec: search for a rotation amount `r` and run length
`s` (`1 ≤ s < e`) such that rotating the `e`-bit pattern `p` right by `r`
yields a single contiguous run of `s` ones (§4.1). -/
def findRS (e p : Nat) : Option (Nat × Nat) :=
  (List.range e).findSome? fun r =>
    (((List.range e).drop 1).find? fun s => ror e p r == onesRun s).map fun s => (r, s)

/-- Modelled from the spec: the Bitmask-Immediate Classifier
`classify(value, width) -> Option<BitmaskEncoding>` (§4.1).  Rejects zero and
all-ones, takes the first (smallest) element size for which the value is
periodic, and searches that pattern for a rotated run of ones.  The returned
triple is (element size, rotation, run length).  Named after the repository
function `LogicalImm` exercised by the unit tests. -/
def LogicalImm (value w : Nat) : Option (Nat × Nat × Nat) :=
  if value = 0 ∨ value = 2 ^ w - 1 then none
  else
    match (candidateSizes w).find? (fun e => repl e (value % 2 ^ e) (w / e) == value) with
    | none => none
    | some e => (findRS e (value % 2 ^ e)).map fun rs => (e, rs.1, rs.2)

/-- Modelled from the spec: the value of the `i`-th 16-bit lane of `v`
("Partition `value` into `width/16` lanes of 16 bits each", §4.2). -/
def laneVal (v i : Nat) : Nat := v / 2 ^ (16 * i) % 65536

/-- Modelled from the spec: the lane indices of a `w`-bit register, in
increasing (least-significant first) order. -/
def laneIndices (w : Nat) : List Nat := List.range (w / 16)

/-- Modelled from the spec: the number of 16-bit lanes of `v` equal to the
constant `fill` (used for the polarity decision of §4.2). -/
def countFillLanes (w v fill : Nat) : Nat :=
  ((laneIndices w).filter fun i => laneVal v i == fill).length

/-- Modelled from the spec: the lanes of `v` whose value differs from the
chosen base polarity's implicit fill, in increasing index order (§4.2). -/
def differingLanes (w v fill : Nat) : List Nat :=
  (laneIndices w).filter fun i => laneVal v i != fill

/-- Modelled from the spec: one emitted operation of the materialization
engine.  `loadLaneZero`/`loadLaneOnes` are the two *load lane* forms of the
Chunked-Move Sequencer (one explicit 16-bit lane, every other lane filled
with zeros resp. ones), `mergeLane` is the *merge lane* form, `orrImm` is
the single-instruction bitwise-immediate form carrying the classifier's
(element size, rotation, run length) triple, and `adr`/`adrp`/`addLo12` are
the PC-relative forms of §4.3. -/
inductive MoveOp where
  | loadLaneZero (lane imm : Nat)
  | loadLaneOnes (lane imm : Nat)
  | mergeLane (lane imm : Nat)
  | orrImm (e r s : Nat)
  | adr (disp : Int)
  | adrp (dispPages : Int)
  | addLo12 (lo : Nat)
  deriving DecidableEq, Repr

/-- Modelled from the spec: the instruction list of one polarity of the
Chunked-Move Sequencer: one *load lane* instruction (`load`) for the first
lane differing from the implicit fill, one *merge lane* instruction for every
subsequent differing lane, in increasing index order; when every lane equals
the fill, a single instruction encodes lane 0 with the fill constant (§4.2). -/
def chunkOps (w v fill : Nat) (load : Nat → Nat → MoveOp) : List MoveOp :=
  match differingLanes w v fill with
  | [] => [load 0 fill]
  | i :: rest => load i (laneVal v i) :: rest.map fun j => .mergeLane j (laneVal v j)

/-- Modelled from the spec: the Chunked-Move Sequencer
`sequence(value, width)` (§4.2).  Polarity: a zero-filling base is chosen
exactly when the number of `0x0000` lanes is ≥ the number of `0xFFFF` lanes
(so a tie chooses zero-filling); otherwise the one-filling base is used. -/
def sequence (w v : Nat) : List MoveOp :=
  if countFillLanes w v 0xFFFF ≤ countFillLanes w v 0 then
    chunkOps w v 0 .loadLaneZero
  else
    chunkOps w v 0xFFFF .loadLaneOnes

/-- Modelled from the spec: the PC-Relative Materializer
`try_materialize_address(target, current_pc)` (§4.3).  The byte-relative
short-range form (one instruction, signed 21-bit byte displacement, the
ADR window of about ±1 MiB) is used whenever its range test passes — the
forms are tried "shortest/fastest first" and the byte form is only skipped
when the displacement "needs the page form".  Otherwise the page-relative
long-range form (signed 21-bit 4-KiB-page displacement, about ±4 GiB) is
used, emitting the low-12-bit add only when `target`'s low 12 bits are
non-zero.  Field widths follow the target ISA's encoding tables (§9). -/
def tryMaterializeAddress (target current_pc : Nat) : Option (List MoveOp) :=
  let disp : Int := (target : Int) - (current_pc : Int)
  if -0x100000 ≤ disp ∧ disp < 0x100000 then
    some [.adr disp]
  else
    let pageDisp : Int := (target : Int) / 4096 - (current_pc : Int) / 4096
    if -0x100000 ≤ pageDisp ∧ pageDisp < 0x100000 then
      some (if target % 4096 = 0 then [.adrp pageDisp]
            else [.adrp pageDisp, .addLo12 (target % 4096)])
    else none

/-- Modelled from the spec: steps (c) and (d) of the Materialization Driver
(§4.4): the single bitwise-immediate-carrying instruction when the
classifier succeeds, else the chunked-move sequence. -/
def bitmaskOrChunks (w value : Nat) : List MoveOp :=
  match LogicalImm value w with
  | some (e, r, s) => [.orrImm e r s]
  | none => sequence w value

/-- Modelled from the spec: the Materialization Driver (§4.4), the
`MOVI2R`-equivalent entry point.  Order of attempts: (a) a direct zero-fill
lane load for `value = 0`; (b) the PC-Relative Materializer when a current-PC
reference is available (the value may be address-like; addresses are 64-bit,
the materializer's contract takes a `uint64` target); (c) the single
bitwise-immediate instruction when the classifier succeeds; (d) the
chunked-move sequence. -/
def MOVI2R (w value : Nat) (current_pc : Option Nat) : List MoveOp :=
  if value = 0 then [.loadLaneZero 0 0]
  else
    match current_pc with
    | some pc =>
      if w = 64 then
        match tryMaterializeAddress value pc with
        | some ops => ops
        | none => bitmaskOrChunks w value
      else bitmaskOrChunks w value
    | none => bitmaskOrChunks w value

/-- Modelled from the spec: overwrite the `i`-th 16-bit lane of `reg` with
`x`, leaving every other lane untouched (the semantics of a *merge lane*
operation). -/
def setLane (reg i x : Nat) : Nat :=
  reg % 2 ^ (16 * i) + x * 2 ^ (16 * i) + reg / 2 ^ (16 * (i + 1)) * 2 ^ (16 * (i + 1))

/-- Modelled from the spec: the architectural effect of one emitted operation
on the destination register, at instruction address `pc`, for register width
`w`.  PC-relative forms compute 64-bit addresses with two's-complement
wraparound (§4.3). -/
def execOp (w pc reg : Nat) : MoveOp → Nat
  | .loadLaneZero i x => x * 2 ^ (16 * i)
  | .loadLaneOnes i x => setLane (2 ^ w - 1) i x
  | .mergeLane i x => setLane reg i x
  | .orrImm e r s => repl e (rol e (onesRun s) r) (w / e)
  | .adr d => (((pc : Int) + d) % (2 ^ 64 : Int)).toNat
  | .adrp d => ((((pc : Int) / 4096 + d) * 4096) % (2 ^ 64 : Int)).toNat
  | .addLo12 lo => (reg + lo) % 2 ^ 64

/-- Modelled from the spec: execute an emitted instruction sequence starting
at address `pc` with initial destination-register contents `reg`; each
instruction occupies 4 bytes ("fixed-width 32-bit instructions", §1). -/
def exec (w : Nat) : Nat → Nat → List MoveOp → Nat
  | _, reg, [] => reg
  | pc, reg, op :: rest => exec w (pc + 4) (execOp w pc reg op) rest

/-- Modelled from the spec: the Code Buffer collaborator (§6): a base
address, a fixed capacity and append-only contents; the write cursor is
`base + 4 ·` number of appended instructions. -/
structure CodeBuffer where
  base : Nat
  capacity : Nat
  contents : List MoveOp

/-- Modelled from the spec: the buffer's write cursor. -/
def CodeBuffer.cursor (buf : CodeBuffer) : Nat := buf.base + 4 * buf.contents.length

/-- Modelled from the spec: the Driver entry point
`emit_load_immediate(buffer, dest, value, width, current_pc_hint)` (§6):
appends the chosen instruction words to the code buffer. -/
def emit_load_immediate (buf : CodeBuffer) (w value : Nat) (current_pc : Option Nat) :
    CodeBuffer :=
  { buf with contents := buf.contents ++ MOVI2R w value current_pc }

/-- The lane index targeted by a lane-oriented operation, if any. -/
def MoveOp.laneIdx : MoveOp → Option Nat
  | .loadLaneZero i _ => some i
  | .loadLaneOnes i _ => some i
  | .mergeLane i _ => some i
  | _ => none

end Arm64Gen

/-!
## DolphinDevice IOS ioctl dispatcher

Shallow embedding of `Source/Core/Core/IOS/DolphinDevice.cpp`.  External
collaborators (Core::WantsDeterminism, Config, the timer, SystemTimers, the
host Discord hooks, the backup-file read and the version string) are supplied
through an environment record; emulated memory is a byte-addressed function;
the configuration value written by `SetSpeedLimit` is tracked in the state.
-/

namespace IOS.HLE

/-- One scatter-gather vector of an IOCtlV request (address and size of a
buffer in emulated memory). -/
structure IOVector where
  address : Nat
  size : Nat
  deriving DecidableEq, Repr

/-- An IOCtlV request: the ioctl request code, the input vectors and the io
(output) vectors. -/
structure IOCtlVRequest where
  request : Nat
  in_vectors : List IOVector
  io_vectors : List IOVector
  deriving DecidableEq, Repr

/-- Modelled from the spec: `IOCtlVRequest::HasNumberOfValidVectors` lives in
repository code outside the provided sources (`Core/IOS/IOS.cpp`); per its
name and use in `DolphinDevice.cpp` it checks that the request carries
exactly the given numbers of input and io vectors. -/
def IOCtlVRequest.HasNumberOfValidVectors (req : IOCtlVRequest) (nin nio : Nat) : Bool :=
  decide (req.in_vectors.length = nin ∧ req.io_vectors.length = nio)

/-- The IOS return codes used by `DolphinDevice.cpp`.  Their numeric values
live in repository code outside the provided sources, so they are modelled
symbolically. -/
inductive ReturnCode where
  | IPC_SUCCESS
  | IPC_EACCES
  | IPC_EINVAL
  | IPC_ENOENT
  deriving DecidableEq, Repr

/-- An IPC reply carrying a return code (`IPCReply(...)` in the source). -/
structure IPCReply where
  return_value : ReturnCode
  deriving DecidableEq, Repr

/-- Emulated memory, byte-addressed. -/
def EmuMemory : Type := Nat → Nat

/-- `Memory::Memset(address, value, size)`: fill `size` bytes starting at
`address` with `value`. -/
def Memset (m : EmuMemory) (addr val size : Nat) : EmuMemory :=
  fun a => if addr ≤ a ∧ a < addr + size then val else m a

/-- `Memory::CopyToEmu(address, data, length)`: copy the byte list `data`
into emulated memory starting at `address`. -/
def CopyToEmu (m : EmuMemory) (addr : Nat) (data : List Nat) : EmuMemory :=
  fun a => if addr ≤ a ∧ a < addr + data.length then data.getD (a - addr) 0 else m a

/-- `Memory::Write_U32(value, address)`: store a 32-bit value as four
big-endian bytes (emulated PowerPC memory order). -/
def Write_U32 (m : EmuMemory) (v addr : Nat) : EmuMemory :=
  fun a =>
    if a = addr then v / 2 ^ 24 % 256
    else if a = addr + 1 then v / 2 ^ 16 % 256
    else if a = addr + 2 then v / 2 ^ 8 % 256
    else if a = addr + 3 then v % 256
    else m a

/-- `Memory::Read_U32(address)`: read four big-endian bytes as a 32-bit
value. -/
def Read_U32 (m : EmuMemory) (addr : Nat) : Nat :=
  m addr % 256 * 2 ^ 24 + m (addr + 1) % 256 * 2 ^ 16 +
    m (addr + 2) % 256 * 2 ^ 8 + m (addr + 3) % 256

/-- The external collaborators consulted by the `DolphinDevice` handlers:
`Core::WantsDeterminism()`, the bytes of `Common::GetScmDescStr()`, the
u32-truncated `m_timer.ElapsedMs()`, the u32 core clock computed by
`GetCPUSpeed` (its float arithmetic is outside the model), the u32 speed
percentage read by `GetSpeedLimit`, the `MAIN_USE_DISCORD_PRESENCE` config
flag, the result of `Host_UpdateDiscordPresenceRaw`, and the `CODE` value
parsed from the backup `setting.txt` (`none` models any file-read failure). -/
structure DolphinEnv where
  wantsDeterminism : Bool
  scmDescStr : List Nat
  elapsedMs : Nat
  coreClock : Nat
  speedPercent : Nat
  useDiscordPresence : Bool
  discordPresenceOk : Bool
  productCode : Option (List Nat)

/-- The emulator-visible state mutated by the handlers: emulated memory and
the emulation-speed configuration value (stored as the raw u32 percentage
written by `SetSpeedLimit`; the source converts it to a float fraction). -/
structure DolphinState where
  mem : EmuMemory
  emulationSpeedPercent : Nat

/-- `GetVersion` (DolphinDevice.cpp:41-54): requires exactly (0 in, 1 io)
vectors, zero-fills the whole output buffer, then copies
`min(buffer size, version string length)` bytes of the version string. -/
def GetVersion (env : DolphinEnv) (req : IOCtlVRequest) (st : DolphinState) :
    IPCReply × DolphinState :=
  if !req.HasNumberOfValidVectors 0 1 then (⟨.IPC_EINVAL⟩, st)
  else
    let io0 := req.io_vectors.getD 0 ⟨0, 0⟩
    let length := min io0.size env.scmDescStr.length
    let m1 := Memset st.mem io0.address 0 io0.size
    let m2 := CopyToEmu m1 io0.address (env.scmDescStr.take length)
    (⟨.IPC_SUCCESS⟩, { st with mem := m2 })

/-- `GetCPUSpeed` (DolphinDevice.cpp:56-76). -/
def GetCPUSpeed (env : DolphinEnv) (req : IOCtlVRequest) (st : DolphinState) :
    IPCReply × DolphinState :=
  if !req.HasNumberOfValidVectors 0 1 then (⟨.IPC_EINVAL⟩, st)
  else
    let io0 := req.io_vectors.getD 0 ⟨0, 0⟩
    if io0.size ≠ 4 then (⟨.IPC_EINVAL⟩, st)
    else (⟨.IPC_SUCCESS⟩, { st with mem := Write_U32 st.mem env.coreClock io0.address })

/-- `GetSpeedLimit` (DolphinDevice.cpp:78-95). -/
def GetSpeedLimit (env : DolphinEnv) (req : IOCtlVRequest) (st : DolphinState) :
    IPCReply × DolphinState :=
  if !req.HasNumberOfValidVectors 0 1 then (⟨.IPC_EINVAL⟩, st)
  else
    let io0 := req.io_vectors.getD 0 ⟨0, 0⟩
    if io0.size ≠ 4 then (⟨.IPC_EINVAL⟩, st)
    else (⟨.IPC_SUCCESS⟩, { st with mem := Write_U32 st.mem env.speedPercent io0.address })

/-- `SetSpeedLimit` (DolphinDevice.cpp:97-114). -/
def SetSpeedLimit (env : DolphinEnv) (req : IOCtlVRequest) (st : DolphinState) :
    IPCReply × DolphinState :=
  if !req.HasNumberOfValidVectors 1 0 then (⟨.IPC_EINVAL⟩, st)
  else
    let in0 := req.in_vectors.getD 0 ⟨0, 0⟩
    if in0.size ≠ 4 then (⟨.IPC_EINVAL⟩, st)
    else (⟨.IPC_SUCCESS⟩, { st with emulationSpeedPercent := Read_U32 st.mem in0.address })

/-- `GetRealProductCode` (DolphinDevice.cpp:116-145). -/
def GetRealProductCode (env : DolphinEnv) (req : IOCtlVRequest) (st : DolphinState) :
    IPCReply × DolphinState :=
  if !req.HasNumberOfValidVectors 0 1 then (⟨.IPC_EINVAL⟩, st)
  else
    match env.productCode with
    | none => (⟨.IPC_ENOENT⟩, st)
    | some code =>
      let io0 := req.io_vectors.getD 0 ⟨0, 0⟩
      let length := min io0.size code.length
      if length = 0 then (⟨.IPC_ENOENT⟩, st)
      else
        let m1 := Memset st.mem io0.address 0 io0.size
        let m2 := CopyToEmu m1 io0.address (code.take length)
        (⟨.IPC_SUCCESS⟩, { st with mem := m2 })

/-- `SetDiscordClient` (DolphinDevice.cpp:147-161); the host-side client-id
update has no effect on the modelled state. -/
def SetDiscordClient (env : DolphinEnv) (req : IOCtlVRequest) (st : DolphinState) :
    IPCReply × DolphinState :=
  if !env.useDiscordPresence then (⟨.IPC_EACCES⟩, st)
  else if !req.HasNumberOfValidVectors 1 0 then (⟨.IPC_EINVAL⟩, st)
  else (⟨.IPC_SUCCESS⟩, st)

/-- `SetDiscordPresence` (DolphinDevice.cpp:163-196). -/
def SetDiscordPresence (env : DolphinEnv) (req : IOCtlVRequest) (st : DolphinState) :
    IPCReply × DolphinState :=
  if !env.useDiscordPresence then (⟨.IPC_EACCES⟩, st)
  else if !req.HasNumberOfValidVectors 10 0 then (⟨.IPC_EINVAL⟩, st)
  else if !env.discordPresenceOk then (⟨.IPC_EACCES⟩, st)
  else (⟨.IPC_SUCCESS⟩, st)

/-- `ResetDiscord` (DolphinDevice.cpp:198-206). -/
def ResetDiscord (env : DolphinEnv) (req : IOCtlVRequest) (st : DolphinState) :
    IPCReply × DolphinState :=
  if !env.useDiscordPresence then (⟨.IPC_EACCES⟩, st)
  else (⟨.IPC_SUCCESS⟩, st)

/-- `DolphinDevice::GetSystemTime` (DolphinDevice.cpp:210-229). -/
def GetSystemTime (env : DolphinEnv) (req : IOCtlVRequest) (st : DolphinState) :
    IPCReply × DolphinState :=
  if !req.HasNumberOfValidVectors 0 1 then (⟨.IPC_EINVAL⟩, st)
  else
    let io0 := req.io_vectors.getD 0 ⟨0, 0⟩
    if io0.size ≠ 4 then (⟨.IPC_EINVAL⟩, st)
    else (⟨.IPC_SUCCESS⟩, { st with mem := Write_U32 st.mem env.elapsedMs io0.address })

/-- `DolphinDevice::IOCtlV` (DolphinDevice.cpp:236-265): refuse every request
with `IPC_EACCES` when determinism is wanted, else dispatch on the request
code 0x01..0x09, answering `IPC_EINVAL` for any other code. -/
def DolphinDevice.IOCtlV (env : DolphinEnv) (req : IOCtlVRequest)
    (st : DolphinState) : IPCReply × DolphinState :=
  if env.wantsDeterminism then (⟨.IPC_EACCES⟩, st)
  else
    match req.request with
    | 0x01 => GetSystemTime env req st
    | 0x02 => GetVersion env req st
    | 0x03 => GetSpeedLimit env req st
    | 0x04 => SetSpeedLimit env req st
    | 0x05 => GetCPUSpeed env req st
    | 0x06 => GetRealProductCode env req st
    | 0x07 => SetDiscordClient env req st
    | 0x08 => SetDiscordPresence env req st
    | 0x09 => ResetDiscord env req st
    | _ => (⟨.IPC_EINVAL⟩, st)

end IOS.HLE

namespace Arm64Gen

/-! ### Bit-level infrastructure -/

theorem repl_succ (e q k : Nat) : repl e q (k + 1) = q + 2 ^ e * repl e q k := rfl

theorem repl_one (e q : Nat) : repl e q 1 = q := by simp [repl]

theorem repl_lt (e q k : Nat) (hq : q < 2 ^ e) : repl e q k < 2 ^ (e * k) := by
  induction k with
  | zero => simp [repl]
  | succ k ih =>
    have h2 : (2 : Nat) ^ (e * (k + 1)) = 2 ^ e * 2 ^ (e * k) := by
      rw [Nat.mul_succ, Nat.pow_add, Nat.mul_comm]
    have h3 : 2 ^ e * (repl e q k + 1) ≤ 2 ^ e * 2 ^ (e * k) :=
      Nat.mul_le_mul_left _ (by omega)
    calc repl e q (k + 1) = q + 2 ^ e * repl e q k := rfl
      _ < 2 ^ e * (repl e q k + 1) := by
          have h := Nat.mul_add (2 ^ e) (repl e q k) 1
          omega
      _ ≤ 2 ^ (e * (k + 1)) := by rw [h2]; exact h3

theorem testBit_repl (e q k : Nat) (hq : q < 2 ^ e) (i : Nat) :
    (repl e q k).testBit i = (decide (i < e * k) && q.testBit (i % e)) := by
  induction k generalizing i with
  | zero => simp [repl]
  | succ k ih =>
    have hsplit : repl e q (k + 1) = 2 ^ e * repl e q k + q := by
      rw [repl_succ]; omega
    rw [hsplit, Nat.testBit_mul_pow_two_add _ hq]
    by_cases hie : i < e
    · have h1 : i < e * (k + 1) := by
        have : e * 1 ≤ e * (k + 1) := Nat.mul_le_mul_left e (by omega)
        omega
      simp [hie, h1, Nat.mod_eq_of_lt hie]
    · have hmod : (i - e) % e = i % e := by
        conv_rhs => rw [show i = (i - e) + e by omega]
        rw [Nat.add_mod_right]
      have hlt : (i - e < e * k) ↔ (i < e * (k + 1)) := by
        rw [Nat.mul_succ]; omega
      simp only [hie, if_false, ih (i - e), hmod]
      congr 1
      exact decide_eq_decide.mpr hlt

theorem ror_lt (e x r : Nat) (hx : x < 2 ^ e) (hr : r ≤ e) : ror e x r < 2 ^ e := by
  have hpow : (2 : Nat) ^ r * 2 ^ (e - r) = 2 ^ e := by
    rw [← Nat.pow_add]; congr 1; omega
  have h1 : x / 2 ^ r < 2 ^ (e - r) :=
    Nat.div_lt_of_lt_mul (by rw [hpow]; exact hx)
  have h2 : x % 2 ^ r < 2 ^ r := Nat.mod_lt _ (Nat.two_pow_pos r)
  calc ror e x r = x / 2 ^ r + x % 2 ^ r * 2 ^ (e - r) := rfl
    _ < 2 ^ (e - r) + x % 2 ^ r * 2 ^ (e - r) := by omega
    _ = (x % 2 ^ r + 1) * 2 ^ (e - r) := by ring
    _ ≤ 2 ^ r * 2 ^ (e - r) := Nat.mul_le_mul_right _ (by omega)
    _ = 2 ^ e := hpow

theorem testBit_ror (e x r : Nat) (hx : x < 2 ^ e) (hr : r ≤ e) (i : Nat) :
    (ror e x r).testBit i = (decide (i < e) && x.testBit ((i + r) % e)) := by
  have he : 0 < e ∨ e = 0 := by omega
  rcases he with he | he
  swap
  · subst he
    have hx0 : x = 0 := by simpa using hx
    subst hx0
    simp [ror]
  have hpow : (2 : Nat) ^ r * 2 ^ (e - r) = 2 ^ e := by
    rw [← Nat.pow_add]; congr 1; omega
  have h1 : x / 2 ^ r < 2 ^ (e - r) :=
    Nat.div_lt_of_lt_mul (by rw [hpow]; exact hx)
  have hsplit : ror e x r = 2 ^ (e - r) * (x % 2 ^ r) + x / 2 ^ r := by
    rw [ror]; ring
  rw [hsplit, Nat.testBit_mul_pow_two_add _ h1]
  by_cases hie : i < e - r
  · have hdiv : x / 2 ^ r = x >>> r := (Nat.shiftRight_eq_div_pow x r).symm
    have hi_e : i < e := by omega
    have hir : (i + r) % e = r + i := by
      rw [Nat.mod_eq_of_lt (by omega)]; omega
    simp [hie, hdiv, Nat.testBit_shiftRight, hi_e, hir]
  · simp only [hie, if_false, Nat.testBit_mod_two_pow]
    by_cases hi_e : i < e
    · have hc1 : i - (e - r) < r := by omega
      have hc2 : (i + r) % e = i - (e - r) := by
        have : i + r = (i - (e - r)) + e := by omega
        rw [this, Nat.add_mod_right, Nat.mod_eq_of_lt (by omega)]
      simp [hi_e, hc1, hc2]
    · have hc1 : ¬ (i - (e - r) < r) := by omega
      simp [hi_e, hc1]

theorem ror_ror_self (e x r : Nat) (hx : x < 2 ^ e) (hr : r ≤ e) :
    ror e (ror e x r) (e - r) = x := by
  have he : 0 < e ∨ e = 0 := by omega
  rcases he with he | he
  swap
  · subst he
    have hx0 : x = 0 := by simpa using hx
    subst hx0
    simp [ror]
  apply Nat.eq_of_testBit_eq
  intro i
  rw [testBit_ror e _ (e - r) (ror_lt e x r hx hr) (by omega),
      testBit_ror e x r hx hr]
  by_cases hi : i < e
  · have h1 : (i + (e - r)) % e < e := Nat.mod_lt _ he
    have h2 : ((i + (e - r)) % e + r) % e = i := by
      rw [Nat.mod_add_mod, show i + (e - r) + r = i + e by omega,
          Nat.add_mod_right, Nat.mod_eq_of_lt hi]
    simp [hi, h1, h2]
  · have hxi : x.testBit i = false := Nat.testBit_lt_two_pow (by
      calc x < 2 ^ e := hx
        _ ≤ 2 ^ i := Nat.pow_le_pow_right (by omega) (by omega))
    simp [hi, hxi]

theorem rol_ror_self (e x r : Nat) (hx : x < 2 ^ e) (hr : r ≤ e) :
    rol e (ror e x r) r = x := by
  rw [rol]; exact ror_ror_self e x r hx hr

theorem rol_lt (e x r : Nat) (hx : x < 2 ^ e) : rol e x r < 2 ^ e :=
  ror_lt e x (e - r) hx (by omega)

theorem onesRun_lt (e s : Nat) (hs : s ≤ e) : onesRun s < 2 ^ e := by
  have h1 : (2 : Nat) ^ s ≤ 2 ^ e := Nat.pow_le_pow_right (by omega) hs
  have h2 : 0 < (2 : Nat) ^ s := Nat.two_pow_pos s
  simp only [onesRun]; omega

/-! ### Chunked-move sequencer: execution correctness and length bounds -/

theorem laneIndices_32 : laneIndices 32 = [0, 1] := rfl

theorem laneIndices_64 : laneIndices 64 = [0, 1, 2, 3] := rfl

theorem exec_chunkZero_64 (pc reg v : Nat) (hv : v < 2 ^ 64) :
    exec 64 pc reg (chunkOps 64 v 0 .loadLaneZero) = v := by
  by_cases h0 : laneVal v 0 = 0 <;> by_cases h1 : laneVal v 1 = 0 <;>
    by_cases h2 : laneVal v 2 = 0 <;> by_cases h3 : laneVal v 3 = 0 <;>
    simp_all [chunkOps, differingLanes, laneIndices_64, laneVal, exec, execOp, setLane,
      List.filter_cons] <;>
    omega

theorem exec_chunkOnes_64 (pc reg v : Nat) (hv : v < 2 ^ 64) :
    exec 64 pc reg (chunkOps 64 v 0xFFFF .loadLaneOnes) = v := by
  by_cases h0 : laneVal v 0 = 0xFFFF <;> by_cases h1 : laneVal v 1 = 0xFFFF <;>
    by_cases h2 : laneVal v 2 = 0xFFFF <;> by_cases h3 : laneVal v 3 = 0xFFFF <;>
    simp_all [chunkOps, differingLanes, laneIndices_64, laneVal, exec, execOp, setLane,
      List.filter_cons] <;>
    omega

theorem exec_chunkZero_32 (pc reg v : Nat) (hv : v < 2 ^ 32) :
    exec 32 pc reg (chunkOps 32 v 0 .loadLaneZero) = v := by
  by_cases h0 : laneVal v 0 = 0 <;> by_cases h1 : laneVal v 1 = 0 <;>
    simp_all [chunkOps, differingLanes, laneIndices_32, laneVal, exec, execOp, setLane,
      List.filter_cons] <;>
    omega

theorem exec_chunkOnes_32 (pc reg v : Nat) (hv : v < 2 ^ 32) :
    exec 32 pc reg (chunkOps 32 v 0xFFFF .loadLaneOnes) = v := by
  by_cases h0 : laneVal v 0 = 0xFFFF <;> by_cases h1 : laneVal v 1 = 0xFFFF <;>
    simp_all [chunkOps, differingLanes, laneIndices_32, laneVal, exec, execOp, setLane,
      List.filter_cons] <;>
    omega

theorem exec_sequence (w pc reg v : Nat) (hw : w = 32 ∨ w = 64) (hv : v < 2 ^ w) :
    exec w pc reg (sequence w v) = v := by
  rcases hw with rfl | rfl <;> rw [sequence] <;> split
  · exact exec_chunkZero_32 pc reg v hv
  · exact exec_chunkOnes_32 pc reg v hv
  · exact exec_chunkZero_64 pc reg v hv
  · exact exec_chunkOnes_64 pc reg v hv

theorem chunkOps_length (w v fill : Nat) (load : Nat → Nat → MoveOp) :
    (chunkOps w v fill load).length = max 1 (differingLanes w v fill).length := by
  rw [chunkOps]
  cases h : differingLanes w v fill with
  | nil => simp
  | cons i rest => simp

theorem differingLanes_length_le (w v fill : Nat) :
    (differingLanes w v fill).length ≤ w / 16 := by
  calc (differingLanes w v fill).length ≤ (laneIndices w).length :=
        List.length_filter_le _ _
    _ = w / 16 := List.length_range _

theorem sequence_length (w v : Nat) (hw : w = 32 ∨ w = 64) :
    1 ≤ (sequence w v).length ∧ (sequence w v).length ≤ w / 16 := by
  have h1 : 1 ≤ w / 16 := by rcases hw with rfl | rfl <;> norm_num
  have hz := chunkOps_length w v 0 .loadLaneZero
  have ho := chunkOps_length w v 0xFFFF .loadLaneOnes
  have hdz := differingLanes_length_le w v 0
  have hdo := differingLanes_length_le w v 0xFFFF
  rw [sequence]
  split <;> omega

/-! ### Classifier: extraction and decode correctness -/

theorem findRS_spec (e p r s : Nat) (h : findRS e p = some (r, s)) :
    r < e ∧ 1 ≤ s ∧ s < e ∧ ror e p r = onesRun s := by
  rw [findRS] at h
  obtain ⟨r', hr'mem, hr'⟩ := List.exists_of_findSome?_eq_some h
  rw [Option.map_eq_some'] at hr'
  obtain ⟨s', hfind, heq⟩ := hr'
  obtain ⟨rfl, rfl⟩ : r' = r ∧ s' = s := by
    simpa [Prod.ext_iff] using heq
  have hpred := List.find?_some hfind
  have hmem' := List.mem_of_find?_eq_some hfind
  have hror : ror e p r' = onesRun s' := by simpa using hpred
  have hr'lt : r' < e := List.mem_range.mp hr'mem
  rcases e with _ | n
  · exact absurd hr'lt (by omega)
  · rw [List.range_succ_eq_map] at hmem'
    simp only [List.drop_succ_cons, List.drop_zero, List.mem_map, List.mem_range] at hmem'
    obtain ⟨t, ht, heqt⟩ := hmem'
    exact ⟨hr'lt, by omega, by omega, hror⟩

theorem LogicalImm_spec (v w e r s : Nat) (h : LogicalImm v w = some (e, r, s)) :
    v ≠ 0 ∧ v ≠ 2 ^ w - 1 ∧ e ∈ candidateSizes w ∧ repl e (v % 2 ^ e) (w / e) = v ∧
      r < e ∧ 1 ≤ s ∧ s < e ∧ ror e (v % 2 ^ e) r = onesRun s := by
  rw [LogicalImm] at h
  split at h
  · exact absurd h (by simp)
  · rename_i hne
    push_neg at hne
    cases hfind : (candidateSizes w).find? (fun e => repl e (v % 2 ^ e) (w / e) == v) with
    | none => rw [hfind] at h; exact absurd h (by simp)
    | some e' =>
      rw [hfind] at h
      rw [Option.map_eq_some'] at h
      obtain ⟨⟨r', s'⟩, hrs, heq⟩ := h
      obtain ⟨rfl, rfl, rfl⟩ : e' = e ∧ r' = r ∧ s' = s := by
        simpa [Prod.ext_iff] using heq
      have hper : repl e' (v % 2 ^ e') (w / e') = v := by
        simpa using List.find?_some hfind
      have hmem := List.mem_of_find?_eq_some hfind
      obtain ⟨hr, hs1, hs2, hror⟩ := findRS_spec e' (v % 2 ^ e') r' s' hrs
      exact ⟨hne.1, hne.2, hmem, hper, hr, hs1, hs2, hror⟩

theorem LogicalImm_decode (v w e r s : Nat)
    (h : LogicalImm v w = some (e, r, s)) :
    repl e (rol e (onesRun s) r) (w / e) = v := by
  obtain ⟨-, -, -, hper, hr, -, -, hror⟩ := LogicalImm_spec v w e r s h
  have hplt : v % 2 ^ e < 2 ^ e := Nat.mod_lt _ (Nat.two_pow_pos e)
  have hdec : rol e (onesRun s) r = v % 2 ^ e := by
    rw [← hror]
    exact rol_ror_self e (v % 2 ^ e) r hplt (by omega)
  rw [hdec, hper]

theorem exec_bitmaskOrChunks (w v pc reg : Nat) (hw : w = 32 ∨ w = 64)
    (hv : v < 2 ^ w) : exec w pc reg (bitmaskOrChunks w v) = v := by
  rw [bitmaskOrChunks]
  cases h : LogicalImm v w with
  | none => exact exec_sequence w pc reg v hw hv
  | some enc =>
    obtain ⟨e, r, s⟩ := enc
    simp only [exec, execOp]
    exact LogicalImm_decode v w e r s h

/-! ### PC-relative materializer: execution correctness -/

theorem exec_tryMaterializeAddress (target pc reg : Nat) (ops : List MoveOp)
    (ht : target < 2 ^ 64) (h : tryMaterializeAddress target pc = some ops) :
    exec 64 pc reg ops = target := by
  rw [tryMaterializeAddress] at h
  simp only at h
  split at h
  · rename_i hrange
    cases h
    simp only [exec, execOp]
    omega
  · split at h
    · rename_i hrange
      cases h
      have hcast : ((target : Int) / 4096) = ((target / 4096 : Nat) : Int) := by
        omega
      have hcastp : ((pc : Int) / 4096) = ((pc / 4096 : Nat) : Int) := by
        omega
      split
      · rename_i hlo
        simp only [exec, execOp]
        rw [hcast, hcastp]
        omega
      · rename_i hlo
        simp only [exec, execOp]
        rw [hcast, hcastp]
        omega
    · exact absurd h (by simp)

/-! ### Driver: master round-trip correctness -/

theorem MOVI2R_zero (w : Nat) (pcOpt : Option Nat) :
    MOVI2R w 0 pcOpt = [.loadLaneZero 0 0] := by
  rw [MOVI2R.eq_def, if_pos rfl]

theorem MOVI2R_none (w v : Nat) (h0 : v ≠ 0) :
    MOVI2R w v none = bitmaskOrChunks w v := by
  rw [MOVI2R.eq_def, if_neg h0]

theorem MOVI2R_some_of_ne (w v pc : Nat) (h0 : v ≠ 0) (hw : w ≠ 64) :
    MOVI2R w v (some pc) = bitmaskOrChunks w v := by
  rw [MOVI2R.eq_def, if_neg h0]
  simp [hw]

theorem MOVI2R_some_64 (v pc : Nat) (h0 : v ≠ 0) :
    MOVI2R 64 v (some pc) =
      match tryMaterializeAddress v pc with
      | some ops => ops
      | none => bitmaskOrChunks 64 v := by
  rw [MOVI2R.eq_def, if_neg h0]
  simp

theorem MOVI2R_exec (w v pc reg : Nat) (pcOpt : Option Nat)
    (hw : w = 32 ∨ w = 64) (hv : v < 2 ^ w)
    (hpc : pcOpt = none ∨ pcOpt = some pc) :
    exec w pc reg (MOVI2R w v pcOpt) = v := by
  by_cases h0 : v = 0
  · subst h0; rw [MOVI2R_zero]; simp [exec, execOp]
  · rcases hpc with rfl | rfl
    · rw [MOVI2R_none w v h0]
      exact exec_bitmaskOrChunks w v pc reg hw hv
    · rcases hw with rfl | rfl
      · rw [MOVI2R_some_of_ne 32 v pc h0 (by omega)]
        exact exec_bitmaskOrChunks 32 v pc reg (Or.inl rfl) hv
      · rw [MOVI2R_some_64 v pc h0]
        cases hta : tryMaterializeAddress v pc with
        | none => exact exec_bitmaskOrChunks 64 v pc reg (Or.inr rfl) hv
        | some ops => exact exec_tryMaterializeAddress v pc reg ops hv hta

/-! ### Emitted-sequence shape lemmas -/

theorem tryMaterializeAddress_length (target pc : Nat) (ops : List MoveOp)
    (h : tryMaterializeAddress target pc = some ops) :
    1 ≤ ops.length ∧ ops.length ≤ 2 := by
  rw [tryMaterializeAddress] at h
  simp only at h
  split at h
  · cases h; simp
  · split at h
    · cases h
      split <;> simp
    · exact absurd h (by simp)

theorem bitmaskOrChunks_length (w v : Nat) (hw : w = 32 ∨ w = 64) :
    1 ≤ (bitmaskOrChunks w v).length ∧ (bitmaskOrChunks w v).length ≤ w / 16 := by
  rw [bitmaskOrChunks]
  cases h : LogicalImm v w with
  | none => exact sequence_length w v hw
  | some enc =>
    obtain ⟨e, r, s⟩ := enc
    have h16 : 1 ≤ w / 16 := by rcases hw with rfl | rfl <;> norm_num
    refine ⟨by simp, ?_⟩
    simpa using h16

theorem MOVI2R_length_pos (w v : Nat) (pcOpt : Option Nat) (hw : w = 32 ∨ w = 64) :
    1 ≤ (MOVI2R w v pcOpt).length := by
  by_cases h0 : v = 0
  · subst h0; rw [MOVI2R_zero]; simp
  · cases pcOpt with
    | none => rw [MOVI2R_none w v h0]; exact (bitmaskOrChunks_length w v hw).1
    | some pc =>
      by_cases hw64 : w = 64
      · subst hw64
        rw [MOVI2R_some_64 v pc h0]
        cases hta : tryMaterializeAddress v pc with
        | none => exact (bitmaskOrChunks_length 64 v hw).1
        | some ops => exact (tryMaterializeAddress_length v pc ops hta).1
      · rw [MOVI2R_some_of_ne w v pc h0 hw64]
        exact (bitmaskOrChunks_length w v hw).1

theorem differingLanes_sorted (w v fill : Nat) :
    (differingLanes w v fill).Pairwise (· < ·) :=
  (List.pairwise_lt_range _).filter _

theorem chunkOps_lanes_sorted (w v fill : Nat) (load : Nat → Nat → MoveOp)
    (hload : ∀ i x, MoveOp.laneIdx (load i x) = some i) :
    ((chunkOps w v fill load).filterMap MoveOp.laneIdx).Pairwise (· < ·) := by
  rw [chunkOps]
  cases hd : differingLanes w v fill with
  | nil => simp [hload]
  | cons i rest =>
    have hsort : (i :: rest).Pairwise (· < ·) := hd ▸ differingLanes_sorted w v fill
    have hmap : ∀ l : List Nat,
        (l.map fun j => MoveOp.mergeLane j (laneVal v j)).filterMap MoveOp.laneIdx = l := by
      intro l
      induction l with
      | nil => rfl
      | cons a as ih => simp [MoveOp.laneIdx, ih]
    simp only [List.filterMap_cons, hload, hmap]
    exact hsort

/-! ### Claim theorems: C1, C3, C4, C5, C7, C8 -/

/-- C1: Round-trip correctness of materialization.  For every value `v` of
register width `w` (32 or 64 bits), executing the instruction sequence
emitted by `MOVI2R` — with or without a current-PC hint matching the
execution address — leaves exactly `v` in the destination register (for
`w = 32` the result is `v` itself as a natural number, i.e. the 32-bit value
zero-extended to 64 bits), for any starting register contents. -/
theorem MOVI2R_roundtrip (w v pc reg : Nat) (pcOpt : Option Nat)
    (hw : w = 32 ∨ w = 64) (hv : v < 2 ^ w)
    (hpc : pcOpt = none ∨ pcOpt = some pc) :
    exec w pc reg (MOVI2R w v pcOpt) = v :=
  MOVI2R_exec w v pc reg pcOpt hw hv hpc

theorem MOVI2R_roundtrip_witness :
    exec 64 4096 0 (MOVI2R 64 0x5555555555555555 none) = 0x5555555555555555 :=
  MOVI2R_roundtrip 64 0x5555555555555555 4096 0 none (Or.inr rfl) (by norm_num)
    (Or.inl rfl)

/-- C3: Total, never-failing public entry point.  For every representable
value of the given width the driver emits at least one instruction and the
emitted sequence reproduces the value ("no cannot-encode outcome"); moreover,
whenever the PC-relative sub-component returns none, the value is still
produced by the chunked-move sequence, with at most `w / 16` instructions
(a full 4-lane sequence for 64 bits in the worst case). -/
theorem MOVI2R_total (w v pc reg : Nat) (pcOpt : Option Nat)
    (hw : w = 32 ∨ w = 64) (hv : v < 2 ^ w)
    (hpc : pcOpt = none ∨ pcOpt = some pc) :
    1 ≤ (MOVI2R w v pcOpt).length ∧ exec w pc reg (MOVI2R w v pcOpt) = v ∧
      (tryMaterializeAddress v pc = none →
        1 ≤ (sequence w v).length ∧ (sequence w v).length ≤ w / 16 ∧
          exec w pc reg (sequence w v) = v) :=
  ⟨MOVI2R_length_pos w v pcOpt hw,
   MOVI2R_exec w v pc reg pcOpt hw hv hpc,
   fun _ => ⟨(sequence_length w v hw).1, (sequence_length w v hw).2,
     exec_sequence w pc reg v hw hv⟩⟩

theorem MOVI2R_total_witness :
    1 ≤ (MOVI2R 64 0x123456789 (some 4096)).length ∧
      exec 64 4096 0 (MOVI2R 64 0x123456789 (some 4096)) = 0x123456789 ∧
      (tryMaterializeAddress 0x123456789 4096 = none →
        1 ≤ (sequence 64 0x123456789).length ∧
          (sequence 64 0x123456789).length ≤ 64 / 16 ∧
          exec 64 4096 0 (sequence 64 0x123456789) = 0x123456789) :=
  MOVI2R_total 64 0x123456789 4096 0 (some 4096) (Or.inr rfl) (by norm_num)
    (Or.inr rfl)

/-- C4: Sequencer output bound and exactness.  For any value of width `w`
(32 or 64) not matched by the bitmask classifier, the chunked-move sequencer
emits between 1 and `w / 16` instructions, and executing the emitted
sequence leaves exactly the requested value in the destination register. -/
theorem sequence_bounds_exact (w v pc reg : Nat) (hw : w = 32 ∨ w = 64)
    (hv : v < 2 ^ w) (hcl : LogicalImm v w = none) :
    1 ≤ (sequence w v).length ∧ (sequence w v).length ≤ w / 16 ∧
      exec w pc reg (sequence w v) = v :=
  ⟨(sequence_length w v hw).1, (sequence_length w v hw).2,
   exec_sequence w pc reg v hw hv⟩

theorem sequence_bounds_exact_witness :
    1 ≤ (sequence 64 0).length ∧ (sequence 64 0).length ≤ 64 / 16 ∧
      exec 64 0 0 (sequence 64 0) = 0 :=
  sequence_bounds_exact 64 0 0 0 (Or.inr rfl) (by norm_num) (by decide)

/-- C5: Classifier boundary rejection.  For both widths, the classifier
returns none on zero and on all-ones, and the driver materializes zero via
the dedicated zero-load path and all-ones via the chunked-move sequencer
(a single one-filling load), never via the single-instruction bitmask
form. -/
theorem LogicalImm_boundary :
    LogicalImm 0 32 = none ∧ LogicalImm 0 64 = none ∧
      LogicalImm (2 ^ 32 - 1) 32 = none ∧ LogicalImm (2 ^ 64 - 1) 64 = none ∧
      MOVI2R 32 0 none = [.loadLaneZero 0 0] ∧
      MOVI2R 64 0 none = [.loadLaneZero 0 0] ∧
      MOVI2R 32 (2 ^ 32 - 1) none = sequence 32 (2 ^ 32 - 1) ∧
      MOVI2R 64 (2 ^ 64 - 1) none = sequence 64 (2 ^ 64 - 1) := by
  refine ⟨by decide, by decide, by decide, by decide, by decide, by decide, ?_, ?_⟩ <;>
    decide

/-- C7: Sequencer polarity rule and lane order.  The sequencer starts with a
zero-filling load exactly when the number of `0x0000` lanes is ≥ the number
of `0xFFFF` lanes (a tie chooses zero-filling), otherwise with a one-filling
load; and the emitted operations always target lanes in strictly increasing
(least-significant-first) index order. -/
theorem sequence_polarity_order (w v : Nat) :
    (countFillLanes w v 0xFFFF ≤ countFillLanes w v 0 →
      ∃ i x, (sequence w v).head? = some (.loadLaneZero i x)) ∧
    (countFillLanes w v 0 < countFillLanes w v 0xFFFF →
      ∃ i x, (sequence w v).head? = some (.loadLaneOnes i x)) ∧
    ((sequence w v).filterMap MoveOp.laneIdx).Pairwise (· < ·) := by
  refine ⟨?_, ?_, ?_⟩
  · intro hpol
    rw [sequence, if_pos hpol, chunkOps]
    cases differingLanes w v 0 with
    | nil => exact ⟨0, 0, rfl⟩
    | cons i rest => exact ⟨i, laneVal v i, rfl⟩
  · intro hpol
    rw [sequence, if_neg (by omega), chunkOps]
    cases differingLanes w v 0xFFFF with
    | nil => exact ⟨0, 0xFFFF, rfl⟩
    | cons i rest => exact ⟨i, laneVal v i, rfl⟩
  · rw [sequence]
    split
    · exact chunkOps_lanes_sorted w v 0 _ (fun i x => rfl)
    · exact chunkOps_lanes_sorted w v 0xFFFF _ (fun i x => rfl)

theorem sequence_polarity_order_witness :
    (countFillLanes 64 0x1234 0xFFFF ≤ countFillLanes 64 0x1234 0 →
      ∃ i x, (sequence 64 0x1234).head? = some (.loadLaneZero i x)) ∧
    (countFillLanes 64 0x1234 0 < countFillLanes 64 0x1234 0xFFFF →
      ∃ i x, (sequence 64 0x1234).head? = some (.loadLaneOnes i x)) ∧
    ((sequence 64 0x1234).filterMap MoveOp.laneIdx).Pairwise (· < ·) :=
  sequence_polarity_order 64 0x1234

/-- C8: Determinism of code generation.  With no current-PC hint, the
instruction words appended by the driver entry point are a function of the
(value, width) pair alone: two materializations into any two code buffers
append byte-identical output (namely `MOVI2R w v none`), and the write
cursor advances by exactly 4 bytes per emitted instruction. -/
theorem emit_deterministic (w v : Nat) (buf1 buf2 : CodeBuffer) :
    (emit_load_immediate buf1 w v none).contents.drop buf1.contents.length =
      (emit_load_immediate buf2 w v none).contents.drop buf2.contents.length ∧
    (emit_load_immediate buf1 w v none).contents.drop buf1.contents.length =
      MOVI2R w v none ∧
    (emit_load_immediate buf1 w v none).cursor =
      buf1.cursor + 4 * (MOVI2R w v none).length := by
  refine ⟨?_, ?_, ?_⟩
  · rw [emit_load_immediate, emit_load_immediate]
    simp [List.drop_left]
  · rw [emit_load_immediate]
    simp [List.drop_left]
  · simp [emit_load_immediate, CodeBuffer.cursor, Nat.mul_add]
    omega

/-! ### Claim C6: PC-relative boundary behaviour -/

/-- C6 (counterexample): at `current_pc = 0x100000000` and
`target = current_pc + 0x100000000` (the claimed `+0x100000000`
page-granularity boundary offset with jitter `0`), the PC-Relative
Materializer rejects the request — the page displacement `+2^20` pages does
not fit the signed 21-bit page-displacement field — and the driver
materializes the value through the single-instruction bitmask form instead,
so materialization does not go "via the page-relative form" as claimed. -/
theorem pcRel_boundary_counterexample :
    tryMaterializeAddress 0x200000000 0x100000000 = none ∧
      tryMaterializeAddress 0x1FFFFC000 0x2FFFFD000 = none ∧
      MOVI2R 64 0x200000000 (some 0x100000000) = [.orrImm 64 33 1] := by
  refine ⟨by decide, by decide, by decide⟩

/-- C6 (amended): with `current_pc = P`, materializing `target = P + offset`
for every byte offset in `[-0x20000, +0x20000)` succeeds via the short-range
byte-displacement (`adr`) form and executes to exactly `target`; and for any
offset whose byte displacement is outside the short-range field but whose
4-KiB-page displacement fits the signed 21-bit page field (in particular the
tested `±0x80000000` offsets with full `±4`-page jitter, and the
`±0x100000000` offsets with the jitter values that keep the page
displacement inside `[-0x100000, +0x100000)` pages), materialization
succeeds via the page-relative (`adrp`, plus low-12-bit add when needed)
form and executes to exactly `target`. -/
theorem pcRel_boundary (P target reg : Nat) (h0 : target ≠ 0)
    (ht : target < 2 ^ 64) :
    ((-0x20000 ≤ (target : Int) - (P : Int) ∧ (target : Int) - (P : Int) < 0x20000) →
      MOVI2R 64 target (some P) = [.adr ((target : Int) - (P : Int))] ∧
        exec 64 P reg (MOVI2R 64 target (some P)) = target) ∧
    ((((target : Int) - (P : Int) < -0x100000 ∨ 0x100000 ≤ (target : Int) - (P : Int)) ∧
        -0x100000 ≤ (target : Int) / 4096 - (P : Int) / 4096 ∧
        (target : Int) / 4096 - (P : Int) / 4096 < 0x100000) →
      (MOVI2R 64 target (some P) =
          [.adrp ((target : Int) / 4096 - (P : Int) / 4096)] ∨
        MOVI2R 64 target (some P) =
          [.adrp ((target : Int) / 4096 - (P : Int) / 4096), .addLo12 (target % 4096)]) ∧
        exec 64 P reg (MOVI2R 64 target (some P)) = target) := by
  constructor
  · rintro ⟨ha1, ha2⟩
    have hta : tryMaterializeAddress target P = some [.adr ((target : Int) - (P : Int))] := by
      rw [tryMaterializeAddress]
      simp only
      rw [if_pos ⟨by omega, by omega⟩]
    have hM : MOVI2R 64 target (some P) = [.adr ((target : Int) - (P : Int))] := by
      rw [MOVI2R_some_64 target P h0, hta]
    refine ⟨hM, ?_⟩
    rw [hM]
    exact exec_tryMaterializeAddress target P reg _ ht hta
  · rintro ⟨hfar, hp1, hp2⟩
    have hta : tryMaterializeAddress target P =
        some (if target % 4096 = 0 then
                [.adrp ((target : Int) / 4096 - (P : Int) / 4096)]
              else
                [.adrp ((target : Int) / 4096 - (P : Int) / 4096),
                  .addLo12 (target % 4096)]) := by
      rw [tryMaterializeAddress]
      simp only
      rw [if_neg (by omega), if_pos ⟨by omega, by omega⟩]
    have hM : MOVI2R 64 target (some P) =
        if target % 4096 = 0 then
          [.adrp ((target : Int) / 4096 - (P : Int) / 4096)]
        else
          [.adrp ((target : Int) / 4096 - (P : Int) / 4096), .addLo12 (target % 4096)] := by
      rw [MOVI2R_some_64 target P h0, hta]
    constructor
    · by_cases hlo : target % 4096 = 0
      · left; rw [hM, if_pos hlo]
      · right; rw [hM, if_neg hlo]
    · rw [hM]
      have := exec_tryMaterializeAddress target P reg _ ht hta
      split at this <;> split <;> first | exact this | omega

theorem pcRel_boundary_witness :
    ((-0x20000 ≤ ((0x100010 : Nat) : Int) - ((0x100000 : Nat) : Int) ∧
        ((0x100010 : Nat) : Int) - ((0x100000 : Nat) : Int) < 0x20000) →
      MOVI2R 64 0x100010 (some 0x100000) =
          [.adr (((0x100010 : Nat) : Int) - ((0x100000 : Nat) : Int))] ∧
        exec 64 0x100000 0 (MOVI2R 64 0x100010 (some 0x100000)) = 0x100010) ∧
    (((((0x100010 : Nat) : Int) - ((0x100000 : Nat) : Int) < -0x100000 ∨
          0x100000 ≤ ((0x100010 : Nat) : Int) - ((0x100000 : Nat) : Int)) ∧
        -0x100000 ≤ ((0x100010 : Nat) : Int) / 4096 - ((0x100000 : Nat) : Int) / 4096 ∧
        ((0x100010 : Nat) : Int) / 4096 - ((0x100000 : Nat) : Int) / 4096 < 0x100000) →
      (MOVI2R 64 0x100010 (some 0x100000) =
          [.adrp (((0x100010 : Nat) : Int) / 4096 - ((0x100000 : Nat) : Int) / 4096)] ∨
        MOVI2R 64 0x100010 (some 0x100000) =
          [.adrp (((0x100010 : Nat) : Int) / 4096 - ((0x100000 : Nat) : Int) / 4096),
            .addLo12 (0x100010 % 4096)]) ∧
        exec 64 0x100000 0 (MOVI2R 64 0x100010 (some 0x100000)) = 0x100010) :=
  pcRel_boundary 0x100000 0x100010 0 (by decide) (by norm_num)

/-! ### Rotation and replication interaction -/

theorem repl_mod (e q k j : Nat) (hq : q < 2 ^ e) (hj : j ≤ k) :
    repl e q k % 2 ^ (e * j) = repl e q j := by
  apply Nat.eq_of_testBit_eq
  intro i
  rw [Nat.testBit_mod_two_pow, testBit_repl e q k hq, testBit_repl e q j hq]
  have hmul : e * j ≤ e * k := Nat.mul_le_mul_left e hj
  by_cases h1 : i < e * j <;> by_cases h2 : i < e * k <;> simp [h1, h2] <;> omega

theorem rol_repl (e q k r : Nat) (hq : q < 2 ^ e) (hr : r < e) :
    rol (e * k) (repl e q k) r = repl e (rol e q r) k := by
  rcases Nat.eq_zero_or_pos k with rfl | hk
  · simp [repl, rol, ror]
  have he : 0 < e := by omega
  have hw0 : 0 < e * k := Nat.mul_pos he hk
  have hT : repl e q k < 2 ^ (e * k) := repl_lt e q k hq
  have hrol : ror e q (e - r) < 2 ^ e := ror_lt e q (e - r) hq (by omega)
  have hsplit : e * k = e + e * (k - 1) := by
    have h1 : k - 1 + 1 = k := Nat.succ_pred_eq_of_pos hk
    calc e * k = e * (k - 1 + 1) := by rw [h1]
      _ = e * (k - 1) + e := Nat.mul_succ e (k - 1)
      _ = e + e * (k - 1) := by omega
  apply Nat.eq_of_testBit_eq
  intro i
  rw [rol, rol]
  rw [testBit_ror (e * k) _ (e * k - r) hT (by omega)]
  rw [testBit_repl e q k hq]
  rw [testBit_repl e (ror e q (e - r)) k hrol]
  rw [testBit_ror e q (e - r) hq (by omega)]
  by_cases hi : i < e * k
  · have hm1 : (i + (e * k - r)) % (e * k) < e * k := Nat.mod_lt _ hw0
    have hidx : (i + (e * k - r)) % (e * k) % e = (i % e + (e - r)) % e := by
      rw [Nat.mod_mod_of_dvd _ (Dvd.intro k rfl)]
      rw [Nat.mod_add_mod]
      have harg : i + (e * k - r) = (i + (e - r)) + e * (k - 1) := by omega
      rw [harg, Nat.add_mul_mod_self_left]
    have him : i % e < e := Nat.mod_lt _ he
    simp [hi, hm1, him]
    congr 1
    have harg : i + (e * k - r) = (i + (e - r)) + e * (k - 1) := by omega
    rw [harg, Nat.add_mul_mod_self_left]
  · simp [hi]

theorem ror_eq_zero_iff (e x r : Nat) (hr : r ≤ e) :
    ror e x r = 0 ↔ x = 0 := by
  rw [ror]
  have h1 := Nat.div_add_mod x (2 ^ r)
  have h2 : 0 < (2 : Nat) ^ (e - r) := Nat.two_pow_pos _
  have h3 : 0 < (2 : Nat) ^ r := Nat.two_pow_pos _
  constructor
  · intro h
    obtain ⟨ha, hb⟩ := Nat.eq_zero_of_add_eq_zero h
    rcases Nat.mul_eq_zero.mp hb with hm0 | hm0
    · calc x = 2 ^ r * (x / 2 ^ r) + x % 2 ^ r := (Nat.div_add_mod x (2 ^ r)).symm
        _ = 0 := by rw [ha, hm0]; simp
    · omega
  · rintro rfl
    simp

theorem ror_rol_self (e x r : Nat) (hx : x < 2 ^ e) (hr : r ≤ e) :
    ror e (rol e x r) r = x := by
  rw [rol]
  have h := ror_ror_self e x (e - r) hx (by omega)
  rwa [show e - (e - r) = r by omega] at h

theorem ror_allOnes (e r : Nat) (hr : r ≤ e) : ror e (2 ^ e - 1) r = 2 ^ e - 1 := by
  rcases Nat.eq_zero_or_pos e with rfl | he
  · simp [ror]
  have hlt : (2 : Nat) ^ e - 1 < 2 ^ e := by
    have := Nat.two_pow_pos e
    omega
  apply Nat.eq_of_testBit_eq
  intro i
  rw [testBit_ror e _ r hlt hr]
  rw [Nat.testBit_two_pow_sub_one, Nat.testBit_two_pow_sub_one]
  by_cases hi : i < e
  · simp [hi, Nat.mod_lt _ he]
  · simp [hi]

theorem two_pow_sub_one_mod (w e : Nat) (h : e ≤ w) :
    (2 ^ w - 1) % 2 ^ e = 2 ^ e - 1 := by
  apply Nat.eq_of_testBit_eq
  intro i
  rw [Nat.testBit_mod_two_pow, Nat.testBit_two_pow_sub_one, Nat.testBit_two_pow_sub_one]
  by_cases hi : i < e
  · have hiw : i < w := by omega
    simp [hi, hiw]
  · simp [hi]

/-- A value generated from a rotated run of `s` ones (`1 ≤ s < e`) tiled at
element size `e = 2d` is never periodic with any period `c` dividing `d`:
the run pattern cannot have two identical halves. -/
theorem gen_not_periodic (w e d c s r : Nat)
    (hw0 : 0 < w) (he2 : e = 2 * d) (hd : 0 < d) (hc : c ∣ d) (hc0 : 0 < c)
    (hdw : e ∣ w) (hs1 : 1 ≤ s) (hs2 : s < e) (hr : r < e)
    (hper : repl c (repl e (rol e (onesRun s) r) (w / e) % 2 ^ c) (w / c) =
      repl e (rol e (onesRun s) r) (w / e)) : False := by
  set p := rol e (onesRun s) r with hp
  set v := repl e p (w / e) with hv
  have he : 0 < e := by omega
  have hde : d ∣ e := Dvd.intro 2 (by omega)
  have hcw : c ∣ w := hc.trans (hde.trans hdw)
  have hew : e ≤ w := Nat.le_of_dvd hw0 hdw
  have hrun : onesRun s < 2 ^ e := onesRun_lt e s (by omega)
  have hplt : p < 2 ^ e := rol_lt e (onesRun s) r hrun
  have hvlt : v < 2 ^ w := by
    have h := repl_lt e p (w / e) hplt
    rwa [Nat.mul_div_cancel' hdw] at h
  have hbit : ∀ i, i < w → v.testBit i = decide ((i % e + (e - r)) % e < s) := by
    intro i hi
    rw [hv, testBit_repl e p (w / e) hplt, Nat.mul_div_cancel' hdw]
    have him : i % e < e := Nat.mod_lt _ he
    rw [hp, rol, testBit_ror e (onesRun s) (e - r) hrun (by omega)]
    rw [onesRun, Nat.testBit_two_pow_sub_one]
    simp [hi, him]
  have hperbit : ∀ i, i < w → v.testBit i = v.testBit (i % c) := by
    intro i hi
    conv_lhs => rw [← hper]
    rw [testBit_repl c (v % 2 ^ c) (w / c) (Nat.mod_lt _ (Nat.two_pow_pos c)),
      Nat.mul_div_cancel' hcw, Nat.testBit_mod_two_pow]
    have hic : i % c < c := Nat.mod_lt _ hc0
    simp [hi, hic]
  have H : ∀ m, m < d →
      decide ((m + d + (e - r)) % e < s) = decide ((m + (e - r)) % e < s) := by
    intro m hm
    have h1w : m + d < w := by omega
    have h2w : m < w := by omega
    have e1 : (m + d) % e = m + d := Nat.mod_eq_of_lt (by omega)
    have e2 : m % e = m := Nat.mod_eq_of_lt (by omega)
    have hmc : (m + d) % c = m % c := by
      obtain ⟨t, rfl⟩ := hc
      rw [Nat.add_mul_mod_self_left]
    have hb1 := hbit (m + d) h1w
    have hb2 := hbit m h2w
    have hq1 := hperbit (m + d) h1w
    have hq2 := hperbit m h2w
    rw [e1] at hb1
    rw [e2] at hb2
    rw [hmc, ← hq2] at hq1
    rw [hb1, hb2] at hq1
    exact hq1
  have G : ∀ t, t < e → decide ((t + d) % e < s) = decide (t < s) := by
    intro t ht
    have ha : (t + r) % e < e := Nat.mod_lt _ he
    by_cases hcase : (t + r) % e < d
    · have hH := H ((t + r) % e) hcase
      have k1 : ((t + r) % e + d + (e - r)) % e = (t + d) % e := by
        calc ((t + r) % e + d + (e - r)) % e
            = ((t + r) % e + (d + (e - r))) % e := by
              rw [Nat.add_assoc]
          _ = (t + r + (d + (e - r))) % e := Nat.mod_add_mod _ _ _
          _ = (t + d + e) % e := by
              congr 1
              omega
          _ = (t + d) % e := Nat.add_mod_right _ _
      have k2 : ((t + r) % e + (e - r)) % e = t := by
        calc ((t + r) % e + (e - r)) % e
            = (t + r + (e - r)) % e := Nat.mod_add_mod _ _ _
          _ = (t + e) % e := by
              congr 1
              omega
          _ = t % e := Nat.add_mod_right _ _
          _ = t := Nat.mod_eq_of_lt ht
      rw [k1, k2] at hH
      exact hH
    · have hH := H ((t + r) % e - d) (by omega)
      have k1 : ((t + r) % e - d + d + (e - r)) % e = t := by
        have harg : (t + r) % e - d + d = (t + r) % e := by omega
        calc ((t + r) % e - d + d + (e - r)) % e
            = ((t + r) % e + (e - r)) % e := by rw [harg]
          _ = (t + r + (e - r)) % e := Nat.mod_add_mod _ _ _
          _ = (t + e) % e := by
              congr 1
              omega
          _ = t % e := Nat.add_mod_right _ _
          _ = t := Nat.mod_eq_of_lt ht
      have k2 : ((t + r) % e - d + (e - r)) % e = (t + d) % e := by
        calc ((t + r) % e - d + (e - r)) % e
            = ((t + r) % e - d + (e - r) + e) % e := (Nat.add_mod_right _ _).symm
          _ = ((t + r) % e + (e - r) + d) % e := by
              congr 1
              omega
          _ = ((t + r) % e + ((e - r) + d)) % e := by
              rw [Nat.add_assoc]
          _ = (t + r + ((e - r) + d)) % e := Nat.mod_add_mod _ _ _
          _ = (t + d + e) % e := by
              congr 1
              omega
          _ = (t + d) % e := Nat.add_mod_right _ _
      rw [k1, k2] at hH
      exact hH.symm
  by_cases hsd : s ≤ d
  · have hG := G 0 (by omega)
    rw [Nat.zero_add, Nat.mod_eq_of_lt (by omega : d < e)] at hG
    rw [decide_eq_decide] at hG
    omega
  · have hG := G s (by omega)
    have hmod : (s + d) % e = s - d := by
      rw [Nat.mod_eq_sub_mod (by omega)]
      have hsub : s + d - e = s - d := by omega
      rw [hsub]
      exact Nat.mod_eq_of_lt (by omega)
    rw [hmod, decide_eq_decide] at hG
    omega

theorem find?_first (p : Nat → Bool) (l : List Nat) (e : Nat) (hmem : e ∈ l)
    (hsorted : l.Pairwise (· < ·)) (hpe : p e = true)
    (hearlier : ∀ c ∈ l, c < e → p c = false) : l.find? p = some e := by
  induction l with
  | nil => simp at hmem
  | cons a as ih =>
    by_cases hae : a = e
    · subst hae
      exact List.find?_cons_of_pos _ hpe
    · have heas : e ∈ as := by
        rcases List.mem_cons.mp hmem with h | h
        · exact absurd h.symm hae
        · exact h
      have halt : a < e := (List.pairwise_cons.mp hsorted).1 e heas
      have hpa : p a = false := hearlier a (List.mem_cons_self a as) halt
      rw [List.find?_cons_of_neg _ (by simp [hpa])]
      exact ih heas (List.pairwise_cons.mp hsorted).2
        (fun c hc hce => hearlier c (List.mem_cons_of_mem a hc) hce)

theorem cand_dvd_half :
    ∀ c ∈ [2, 4, 8, 16, 32, 64], ∀ e ∈ ([2, 4, 8, 16, 32, 64] : List Nat),
      c < e → e = 2 * (e / 2) ∧ c ∣ e / 2 ∧ 0 < e / 2 := by
  decide

/-- The Bitmask-Immediate Classifier accepts every value generated by tiling
a rotated run of `s` ones (`1 ≤ s < e`) at any admissible element size
`e` dividing the width, and such a value is nonzero. -/
theorem LogicalImm_gen_isSome (w e s r : Nat) (hw0 : 0 < w)
    (he : e ∈ [2, 4, 8, 16, 32, 64]) (hew : e ∣ w)
    (hs1 : 1 ≤ s) (hs2 : s < e) (hr : r < e) :
    (LogicalImm (repl e (rol e (onesRun s) r) (w / e)) w).isSome = true ∧
      repl e (rol e (onesRun s) r) (w / e) ≠ 0 := by
  set p := rol e (onesRun s) r with hp
  set v := repl e p (w / e) with hv
  have he' : e = 2 ∨ e = 4 ∨ e = 8 ∨ e = 16 ∨ e = 32 ∨ e = 64 := by
    simpa using he
  have he0 : 0 < e := by omega
  have hew_le : e ≤ w := Nat.le_of_dvd hw0 hew
  have hrun_lt : onesRun s < 2 ^ e := onesRun_lt e s (by omega)
  have htwo : 2 ≤ (2 : Nat) ^ s := by
    calc (2 : Nat) = 2 ^ 1 := rfl
      _ ≤ 2 ^ s := Nat.pow_le_pow_right (by omega) hs1
  have hrun_ne0 : onesRun s ≠ 0 := by
    rw [onesRun]
    omega
  have hplt : p < 2 ^ e := rol_lt e (onesRun s) r hrun_lt
  have hpne0 : p ≠ 0 := by
    intro habs
    rw [hp, rol] at habs
    exact hrun_ne0 ((ror_eq_zero_iff e (onesRun s) (e - r) (by omega)).mp habs)
  have hpne1 : p ≠ 2 ^ e - 1 := by
    intro habs
    have hinv := ror_rol_self e (onesRun s) r hrun_lt (by omega)
    rw [← hp, habs, ror_allOnes e r (by omega)] at hinv
    have hpow : (2 : Nat) ^ e = 2 ^ s := by
      have h1 := Nat.two_pow_pos e
      have h2 := Nat.two_pow_pos s
      rw [onesRun] at hinv
      omega
    have := Nat.pow_right_injective (le_refl 2) hpow
    omega
  have hone : 1 ≤ w / e := Nat.div_pos hew_le he0
  have hvmod : v % 2 ^ e = p := by
    have h := repl_mod e p (w / e) 1 hplt hone
    rw [hv]
    simpa [repl] using h
  have hvlt : v < 2 ^ w := by
    have h := repl_lt e p (w / e) hplt
    rwa [Nat.mul_div_cancel' hew] at h
  have hvne0 : v ≠ 0 := by
    intro habs
    rw [habs, Nat.zero_mod] at hvmod
    exact hpne0 hvmod.symm
  have hvne1 : v ≠ 2 ^ w - 1 := by
    intro habs
    rw [habs, two_pow_sub_one_mod w e hew_le] at hvmod
    exact hpne1 hvmod.symm
  have hfind : (candidateSizes w).find?
      (fun c => repl c (v % 2 ^ c) (w / c) == v) = some e := by
    apply find?_first
    · exact List.mem_filter.mpr ⟨he, by simpa using hew_le⟩
    · exact List.Pairwise.filter _
        (by decide : ([2, 4, 8, 16, 32, 64] : List Nat).Pairwise (· < ·))
    · simp only [hvmod, beq_iff_eq]
    · intro c hc hce
      simp only [beq_eq_false_iff_ne, ne_eq]
      intro habs
      have hcmem : c ∈ [2, 4, 8, 16, 32, 64] := (List.mem_filter.mp hc).1
      obtain ⟨he2, hcdvd, hd0⟩ := cand_dvd_half c hcmem e he hce
      have hc0 : 0 < c := by
        have hall : ∀ x ∈ ([2, 4, 8, 16, 32, 64] : List Nat), 2 ≤ x := by decide
        have := hall c hcmem
        omega
      exact gen_not_periodic w e (e / 2) c s r hw0 he2 hd0 hcdvd hc0 hew hs1 hs2 hr habs
  have hLIv : LogicalImm v w = (findRS e (v % 2 ^ e)).map fun rs => (e, rs.1, rs.2) := by
    rw [LogicalImm, if_neg (by push_neg; exact ⟨hvne0, hvne1⟩), hfind]
  have hfrs : (findRS e p).isSome = true := by
    rw [findRS, List.findSome?_isSome_iff]
    refine ⟨r, List.mem_range.mpr hr, ?_⟩
    rw [Option.isSome_map']
    rw [List.find?_isSome]
    refine ⟨s, ?_, ?_⟩
    · obtain ⟨n, rfl⟩ : ∃ n, e = n + 1 := ⟨e - 1, by omega⟩
      rw [List.range_succ_eq_map]
      simp only [List.drop_succ_cons, List.drop_zero, List.mem_map, List.mem_range]
      exact ⟨s - 1, by omega, by omega⟩
    · simp only [beq_iff_eq]
      exact ror_rol_self e (onesRun s) r hrun_lt (by omega)
  refine ⟨?_, hvne0⟩
  rw [hLIv, hvmod]
  simpa using hfrs

/-- C2: Classifier soundness.  For every value produced by the
bitmask-immediate generation formula of the unit test — element size
`e ∈ {2,4,8,16,32,64}`, run length `s` with `1 ≤ s < e`, rotation `r` with
`r < e`; replicate a run of `s` ones across `e`-bit lanes, tile to 64 bits,
rotate — `LogicalImm(value, 64)` returns a match, the driver emits exactly
one instruction for it, and when `e < 64` the same holds for the truncated
32-bit value with `LogicalImm(u32(value), 32)`. -/
theorem LogicalImm_sound_gen (e s r : Nat)
    (he : e ∈ [2, 4, 8, 16, 32, 64]) (hs1 : 1 ≤ s) (hs2 : s < e) (hr : r < e) :
    (LogicalImm (rol 64 (repl e (onesRun s) (64 / e)) r) 64).isSome = true ∧
    (MOVI2R 64 (rol 64 (repl e (onesRun s) (64 / e)) r) none).length = 1 ∧
    (e < 64 →
      (LogicalImm (rol 64 (repl e (onesRun s) (64 / e)) r % 2 ^ 32) 32).isSome = true ∧
      (MOVI2R 32 (rol 64 (repl e (onesRun s) (64 / e)) r % 2 ^ 32) none).length = 1) := by
  have hed : e ∣ 64 := by
    have hall : ∀ x ∈ ([2, 4, 8, 16, 32, 64] : List Nat), x ∣ 64 := by decide
    exact hall e he
  have hrun_lt : onesRun s < 2 ^ e := onesRun_lt e s (by omega)
  have hkey : rol 64 (repl e (onesRun s) (64 / e)) r =
      repl e (rol e (onesRun s) r) (64 / e) := by
    have h64 : e * (64 / e) = 64 := Nat.mul_div_cancel' hed
    have h := rol_repl e (onesRun s) (64 / e) r hrun_lt hr
    rwa [h64] at h
  rw [hkey]
  obtain ⟨hsome64, hne64⟩ := LogicalImm_gen_isSome 64 e s r (by omega) he hed hs1 hs2 hr
  refine ⟨hsome64, ?_, ?_⟩
  · rw [MOVI2R_none 64 _ hne64, bitmaskOrChunks]
    obtain ⟨enc, hLI⟩ := Option.isSome_iff_exists.mp hsome64
    obtain ⟨e', r', s'⟩ := enc
    rw [hLI]
    rfl
  · intro he64
    have he32 : e ∣ 32 := by
      have hall : ∀ x ∈ ([2, 4, 8, 16, 32, 64] : List Nat), x < 64 → x ∣ 32 := by decide
      exact hall e he he64
    have hplt : rol e (onesRun s) r < 2 ^ e := rol_lt e (onesRun s) r hrun_lt
    have hmod : repl e (rol e (onesRun s) r) (64 / e) % 2 ^ 32 =
        repl e (rol e (onesRun s) r) (32 / e) := by
      have h32 : e * (32 / e) = 32 := Nat.mul_div_cancel' he32
      have hjk : 32 / e ≤ 64 / e := Nat.div_le_div_right (by omega)
      have h := repl_mod e (rol e (onesRun s) r) (64 / e) (32 / e) hplt hjk
      rwa [h32] at h
    rw [hmod]
    obtain ⟨hsome32, hne32⟩ := LogicalImm_gen_isSome 32 e s r (by omega) he he32 hs1 hs2 hr
    refine ⟨hsome32, ?_⟩
    rw [MOVI2R_none 32 _ hne32, bitmaskOrChunks]
    obtain ⟨enc, hLI⟩ := Option.isSome_iff_exists.mp hsome32
    obtain ⟨e', r', s'⟩ := enc
    rw [hLI]
    rfl

theorem LogicalImm_sound_gen_witness :
    (LogicalImm (rol 64 (repl 8 (onesRun 3) (64 / 8)) 5) 64).isSome = true ∧
    (MOVI2R 64 (rol 64 (repl 8 (onesRun 3) (64 / 8)) 5) none).length = 1 ∧
    (8 < 64 →
      (LogicalImm (rol 64 (repl 8 (onesRun 3) (64 / 8)) 5 % 2 ^ 32) 32).isSome = true ∧
      (MOVI2R 32 (rol 64 (repl 8 (onesRun 3) (64 / 8)) 5 % 2 ^ 32) none).length = 1) :=
  LogicalImm_sound_gen 8 3 5 (by decide) (by decide) (by decide) (by decide)

end Arm64Gen

namespace IOS.HLE

theorem getD_take_of_lt (l : List Nat) (n i d : Nat) (h : i < n) :
    (l.take n).getD i d = l.getD i d := by
  rw [List.getD_eq_getElem?_getD, List.getD_eq_getElem?_getD,
    List.getElem?_take_of_lt h]

/-! ### Claim theorems: C9, C10 -/

/-- C9: For every IOCtlV request, if determinism is wanted then
`DolphinDevice::IOCtlV` replies `IPC_EACCES` with the state (emulated memory
and configuration) completely unchanged — no ioctl handler is consulted —
and, when determinism is not wanted, every request code outside 0x01..0x09
is answered `IPC_EINVAL`, also with the state unchanged. -/
theorem IOCtlV_determinism_guard (env : DolphinEnv) (req : IOCtlVRequest)
    (st : DolphinState) :
    (env.wantsDeterminism = true →
      DolphinDevice.IOCtlV env req st = (⟨.IPC_EACCES⟩, st)) ∧
    (env.wantsDeterminism = false →
      (req.request < 0x01 ∨ 0x09 < req.request) →
      DolphinDevice.IOCtlV env req st = (⟨.IPC_EINVAL⟩, st)) := by
  constructor
  · intro h
    rw [DolphinDevice.IOCtlV, if_pos h]
  · intro h hr
    rw [DolphinDevice.IOCtlV, if_neg (by simp [h])]
    split <;> first | rfl | omega

theorem IOCtlV_determinism_guard_witness :
    DolphinDevice.IOCtlV ⟨true, [], 0, 0, 0, false, false, none⟩ ⟨0x42, [], []⟩
        ⟨fun _ => 0, 100⟩ =
      (⟨.IPC_EACCES⟩, ⟨fun _ => 0, 100⟩) ∧
    DolphinDevice.IOCtlV ⟨false, [], 0, 0, 0, false, false, none⟩ ⟨0x42, [], []⟩
        ⟨fun _ => 0, 100⟩ =
      (⟨.IPC_EINVAL⟩, ⟨fun _ => 0, 100⟩) :=
  ⟨(IOCtlV_determinism_guard ⟨true, [], 0, 0, 0, false, false, none⟩ ⟨0x42, [], []⟩
      ⟨fun _ => 0, 100⟩).1 rfl,
   (IOCtlV_determinism_guard ⟨false, [], 0, 0, 0, false, false, none⟩ ⟨0x42, [], []⟩
      ⟨fun _ => 0, 100⟩).2 rfl (Or.inr (by decide))⟩

/-- C10: GetVersion output shaping.  For a request with exactly zero input
vectors and one io vector, `GetVersion` replies `IPC_SUCCESS` after
zero-filling all `io_vectors[0].size` bytes of the output buffer and then
copying `min(io_vectors[0].size, length of the version string)` bytes of the
version string (truncating without a terminator when the buffer is shorter
than the string); bytes outside the buffer and the configuration are
untouched.  For any other vector arrangement it replies `IPC_EINVAL` and
writes nothing. -/
theorem GetVersion_shaping (env : DolphinEnv) (req : IOCtlVRequest)
    (st : DolphinState) :
    (∀ io0 : IOVector, req.in_vectors.length = 0 → req.io_vectors = [io0] →
      (GetVersion env req st).1 = ⟨.IPC_SUCCESS⟩ ∧
      (∀ i : Nat, i < min io0.size env.scmDescStr.length →
        (GetVersion env req st).2.mem (io0.address + i) = env.scmDescStr.getD i 0) ∧
      (∀ i : Nat, min io0.size env.scmDescStr.length ≤ i → i < io0.size →
        (GetVersion env req st).2.mem (io0.address + i) = 0) ∧
      (∀ a : Nat, a < io0.address ∨ io0.address + io0.size ≤ a →
        (GetVersion env req st).2.mem a = st.mem a) ∧
      (GetVersion env req st).2.emulationSpeedPercent = st.emulationSpeedPercent) ∧
    (¬(req.in_vectors.length = 0 ∧ req.io_vectors.length = 1) →
      GetVersion env req st = (⟨.IPC_EINVAL⟩, st)) := by
  constructor
  · intro io0 hin hio
    have hvec : req.HasNumberOfValidVectors 0 1 = true := by
      simp [IOCtlVRequest.HasNumberOfValidVectors, hin, hio]
    have hlen : min io0.size env.scmDescStr.length ≤ env.scmDescStr.length :=
      Nat.min_le_right _ _
    have htake : (env.scmDescStr.take (min io0.size env.scmDescStr.length)).length =
        min io0.size env.scmDescStr.length := by
      rw [List.length_take]
      omega
    have heval : GetVersion env req st =
        (⟨.IPC_SUCCESS⟩,
          { st with mem := (CopyToEmu (Memset st.mem io0.address 0 io0.size) io0.address (env.scmDescStr.take (min io0.size env.scmDescStr.length))) }) := by
      rw [GetVersion, hvec]
      simp [hio]
    rw [heval]
    refine ⟨rfl, ?_, ?_, ?_, rfl⟩
    · intro i hi
      simp only [CopyToEmu, htake]
      rw [if_pos (by omega)]
      rw [Nat.add_sub_cancel_left]
      exact getD_take_of_lt _ _ _ _ hi
    · intro i hi1 hi2
      simp only [CopyToEmu, Memset, htake]
      rw [if_neg (by omega), if_pos (by omega)]
    · intro a ha
      have hminle : min io0.size env.scmDescStr.length ≤ io0.size :=
        Nat.min_le_left _ _
      simp only [CopyToEmu, Memset, htake]
      rw [if_neg (by omega), if_neg (by omega)]
  · intro hbad
    have hvec : req.HasNumberOfValidVectors 0 1 = false := by
      simp only [IOCtlVRequest.HasNumberOfValidVectors, decide_eq_false_iff_not]
      exact hbad
    rw [GetVersion, hvec]
    simp

theorem GetVersion_shaping_witness :
    ((⟨0, [], [⟨0x1000, 2⟩]⟩ : IOCtlVRequest).in_vectors.length = 0 ∧
      (⟨0, [], [⟨0x1000, 2⟩]⟩ : IOCtlVRequest).io_vectors = [⟨0x1000, 2⟩]) ∧
    (GetVersion ⟨false, [65, 66, 67], 0, 0, 0, false, false, none⟩
        ⟨0, [], [⟨0x1000, 2⟩]⟩ ⟨fun _ => 7, 100⟩).1 = ⟨.IPC_SUCCESS⟩ :=
  ⟨⟨rfl, rfl⟩,
   ((GetVersion_shaping ⟨false, [65, 66, 67], 0, 0, 0, false, false, none⟩
        ⟨0, [], [⟨0x1000, 2⟩]⟩ ⟨fun _ => 7, 100⟩).1 ⟨0x1000, 2⟩ rfl rfl).1⟩

end IOS.HLE
